import Mathlib

/-!
Shallow embedding of the bloom-filter package (`bloom.go`) and verification of
its specification claims.

Byte strings are modelled as `List Nat` (each entry a byte value; the hash
reduces entries mod 256 exactly as Go's `byte` type does).  Go's `uint` is
64 bits wide on the supported platforms, so unsigned wrapping arithmetic is
modelled as `Nat` arithmetic reduced `% 2 ^ 64` where the source can overflow.
The backing bit array (the external `bitset` dependency) is modelled as a
`List Bool` whose length is the bitset's bit-length, with the operations the
spec's external-collaborator contract describes.
-/

namespace Bloom

/-- Wrap-around modulus of Go's 64-bit `uint` arithmetic. -/
def U64 : Nat := 2 ^ 64

/-- Wrap-around modulus of Go's `uint32` arithmetic. -/
def U32 : Nat := 2 ^ 32

/-- FNV-64 offset basis (Go `hash/fnv`). -/
def fnvOffset : Nat := 14695981039346656037

/-- FNV-64 prime (Go `hash/fnv`). -/
def fnvPrime : Nat := 1099511628211

/-- FNV-1 64-bit hash of a byte string, as computed by Go's `fnv.New64()`:
starting from the offset basis, each byte step multiplies by the FNV prime
(wrapping mod `2^64`) and xors in the byte. -/
def fnv64 (data : List Nat) : Nat :=
  data.foldl (fun h c => (h * fnvPrime % U64) ^^^ (c % 256)) fnvOffset

/-- The `BloomFilter` struct of `bloom.go`: bit count `m`, hash count `k`,
backing bit array `b`, scratch location buffer `locBuff`, and the `present`
scratch boolean written by `TestAndAdd`.  The `hasher` field is omitted: it is
`Reset` before every use in `base_hashes`, so it carries no information from
one call to the next. -/
structure BloomFilter where
  m : Nat
  k : Nat
  b : List Bool
  locBuff : List Nat
  present : Bool
deriving DecidableEq

/-- Modelled from the spec: the external bit-array collaborator's constructor,
`new(size) -> BitArray` with all bits clear. -/
def bitsetNew (m : Nat) : List Bool := List.replicate m false

/-- Modelled from the spec: the external bit array's `test(index) -> bool`;
indices beyond the array are not set. -/
def bitsetTest (b : List Bool) (i : Nat) : Bool := b.getD i false

/-- Modelled from the spec: the external bit array's `set(index)`; an index
beyond the current length grows the array (the dependency's documented
auto-extension), which the filter never triggers since it probes `mod m`. -/
def bitsetSet (b : List Bool) (i : Nat) : List Bool :=
  if i < b.length then b.set i true
  else b ++ List.replicate (i - b.length) false ++ [true]

/-- Modelled from the spec: the external bit array's `clear_all()`. -/
def bitsetClearAll (b : List Bool) : List Bool := List.replicate b.length false

/-- `New(m, k)` from `bloom.go`: stores `m` and `k` as given, a fresh all-clear
bit array of `m` bits, a scratch buffer of length `k`, and `present = false`. -/
def New (m k : Nat) : BloomFilter :=
  { m := m, k := k, b := bitsetNew m, locBuff := List.replicate k 0,
    present := false }

/-- `base_hashes` from `bloom.go`: hash the data once with FNV-64, serialize
the digest big-endian, and return `a` = the lower four bytes and `b` = the
upper four bytes, i.e. `(digest mod 2^32, digest / 2^32)`. -/
def base_hashes (data : List Nat) : Nat × Nat :=
  (fnv64 data % U32, fnv64 data / U32)

/-- `locations` from `bloom.go`: the `i`-th probed index, for `i < k`, is
`(a + b * i) % m` computed in wrapping 64-bit `uint` arithmetic.  The Go code
writes the indices into `f.locBuff`; here the resulting list is returned. -/
def locations (f : BloomFilter) (data : List Nat) : List Nat :=
  (List.range f.k).map fun i =>
    ((base_hashes data).1 + (base_hashes data).2 * i) % U64 % f.m

/-- `Add` from `bloom.go`: compute the `k` locations (filling `locBuff`) and
set each corresponding bit. -/
def Add (f : BloomFilter) (data : List Nat) : BloomFilter :=
  let ls := locations f data
  { f with locBuff := ls, b := ls.foldl bitsetSet f.b }

/-- `Test` from `bloom.go`: compute the `k` locations (filling `locBuff`) and
report whether every corresponding bit is set.  Returned as the boolean result
together with the post-call filter state. -/
def Test (f : BloomFilter) (data : List Nat) : Bool × BloomFilter :=
  let ls := locations f data
  (ls.all fun l => bitsetTest f.b l, { f with locBuff := ls })

/-- `TestAndAdd` from `bloom.go`: one pass over the `k` locations; `present`
starts `true`, is cleared whenever a probed bit is found unset, and every
probed bit is set; the final `present` is stored in the struct and returned. -/
def TestAndAdd (f : BloomFilter) (data : List Nat) : Bool × BloomFilter :=
  let ls := locations f data
  let pb := ls.foldl
    (fun (s : Bool × List Bool) l => (s.1 && bitsetTest s.2 l, bitsetSet s.2 l))
    (true, f.b)
  (pb.1, { f with locBuff := ls, b := pb.2, present := pb.1 })

/-- `ClearAll` from `bloom.go`: clear every bit of the backing array. -/
def ClearAll (f : BloomFilter) : BloomFilter :=
  { f with b := bitsetClearAll f.b }


/-- Probing a bit after a `set`: the bit at `j` is set in `bitsetSet b i` iff it
was already set or `j = i`.  Holds also in the auto-extension branch. -/
theorem bitsetTest_bitsetSet (b : List Bool) (i j : Nat) :
    bitsetTest (bitsetSet b i) j = (bitsetTest b j || (j == i)) := by
  simp only [bitsetTest, bitsetSet, List.getD_eq_getElem?_getD]
  by_cases h : i < b.length
  · simp only [if_pos h, List.getElem?_set]
    by_cases hij : i = j
    · subst hij
      simp [if_pos h]
    · simp [hij, Ne.symm hij]
  · simp only [if_neg h]
    rw [List.getElem?_append]
    simp only [List.length_append, List.length_replicate]
    have hbi : b.length + (i - b.length) = i := by omega
    rw [hbi]
    by_cases hji : j < i
    · simp only [if_pos hji]
      rw [List.getElem?_append]
      by_cases hj : j < b.length
      · simp only [if_pos hj]
        have : j ≠ i := by omega
        simp [this]
      · simp only [if_neg hj, List.getElem?_replicate]
        have h1 : j - b.length < i - b.length := by omega
        simp only [if_pos h1, Option.getD_some]
        rw [List.getElem?_eq_none (by omega : b.length ≤ j)]
        have : j ≠ i := by omega
        simp [this]
    · simp only [if_neg hji]
      by_cases heq : j = i
      · subst heq
        simp only [Nat.sub_self, List.getElem?_cons_zero, Option.getD_some]
        rw [List.getElem?_eq_none (by omega : b.length ≤ j)]
        simp
      · have h1 : 1 ≤ j - i := by omega
        rw [List.getElem?_eq_none (by simpa using h1)]
        rw [List.getElem?_eq_none (by omega : b.length ≤ j)]
        simp [heq]

/-- Setting a list of locations and then probing: the bit at `j` is set in the
fold iff it was already set or `j` occurs among the locations. -/
theorem bitsetTest_foldl_bitsetSet (ls : List Nat) (b : List Bool) (j : Nat) :
    bitsetTest (ls.foldl bitsetSet b) j = (bitsetTest b j || ls.contains j) := by
  induction ls generalizing b with
  | nil => simp [List.contains]
  | cons l t ih =>
    simp only [List.foldl_cons, ih, bitsetTest_bitsetSet, List.contains_cons]
    rw [Bool.or_assoc]



/-- The probed locations depend only on the key and on the filter's `m` and
`k` parameters, not on its bit contents or scratch state. -/
theorem locations_congr (f g : BloomFilter) (data : List Nat)
    (hm : g.m = f.m) (hk : g.k = f.k) :
    locations g data = locations f data := by
  simp [locations, hm, hk]

/-- C1: no false negatives.  For every filter with `m ≥ 1` and `k ≥ 1` and
every byte-string key `x`, `Add(x)` followed by `Test(x)` returns `true`,
regardless of the filter's prior contents. -/
theorem C1_no_false_negatives (f : BloomFilter) (x : List Nat)
    (hm : 1 ≤ f.m) (hk : 1 ≤ f.k) :
    (Test (Add f x) x).1 = true := by
  show (locations (Add f x) x).all
      (fun l => bitsetTest (Add f x).b l) = true
  rw [locations_congr f (Add f x) x rfl rfl]
  rw [List.all_eq_true]
  intro l hl
  show bitsetTest ((locations f x).foldl bitsetSet f.b) l = true
  rw [bitsetTest_foldl_bitsetSet]
  have hc : (locations f x).contains l = true := by
    simpa [List.contains, List.elem_iff] using hl
  rw [hc, Bool.or_true]

/-- Closed-input witness for `C1_no_false_negatives`. -/
theorem C1_no_false_negatives_witness :
    1 ≤ (New 3 2).m ∧ 1 ≤ (New 3 2).k ∧
      (Test (Add (New 3 2) [42]) [42]).1 = true :=
  ⟨by decide, by decide,
   C1_no_false_negatives (New 3 2) [42] (by decide) (by decide)⟩

/-- C10: `Test` leaves the observable filter state unchanged: `m`, `k` and the
backing bit array are identical before and after the call (only the scratch
location buffer is rewritten). -/
theorem C10_Test_frame (f : BloomFilter) (x : List Nat) (hm : 1 ≤ f.m) :
    (Test f x).2.m = f.m ∧ (Test f x).2.k = f.k ∧ (Test f x).2.b = f.b := by
  exact ⟨rfl, rfl, rfl⟩

/-- Closed-input witness for `C10_Test_frame`. -/
theorem C10_Test_frame_witness :
    1 ≤ (New 4 2).m ∧ (Test (New 4 2) [9]).2.m = (New 4 2).m ∧
      (Test (New 4 2) [9]).2.k = (New 4 2).k ∧
      (Test (New 4 2) [9]).2.b = (New 4 2).b :=
  ⟨by decide, C10_Test_frame (New 4 2) [9] (by decide)⟩

/-- C2: the `i`-th probed location is `(h1 + i * h2) mod m` in wrapping 64-bit
arithmetic, where `h1` and `h2` are the two 32-bit halves of the single FNV-64
digest of the key, and the locations are determined by the key and `(m, k)`
alone. -/
theorem C2_locations_formula (f g : BloomFilter) (data : List Nat) (i : Nat)
    (hi : i < f.k) (hm : 1 ≤ f.m) (hgm : g.m = f.m) (hgk : g.k = f.k) :
    (locations f data)[i]? =
      some ((fnv64 data % U32 + i * (fnv64 data / U32)) % U64 % f.m)
    ∧ locations g data = locations f data := by
  constructor
  · simp [locations, List.getElem?_map, List.getElem?_range, hi, base_hashes,
      Nat.mul_comm]
  · exact locations_congr f g data hgm hgk

/-- Closed-input witness for `C2_locations_formula`. -/
theorem C2_locations_formula_witness :
    (locations (New 5 3) [1, 2, 3])[1]? =
      some ((fnv64 [1, 2, 3] % U32 + 1 * (fnv64 [1, 2, 3] / U32)) % U64 % (New 5 3).m)
    ∧ locations (Add (New 5 3) [9]) [1, 2, 3] = locations (New 5 3) [1, 2, 3] :=
  C2_locations_formula (New 5 3) (Add (New 5 3) [9]) [1, 2, 3] 1
    (by decide) (by decide) rfl rfl



/-- The fused pass of `TestAndAdd`: its running conjunction ends `true` iff
every location was set in the starting bit array, and its bit array ends as
the plain fold of `bitsetSet`. -/
theorem testAndAdd_foldl (ls : List Nat) (b : List Bool) (p : Bool) :
    ls.foldl (fun (s : Bool × List Bool) l =>
        (s.1 && bitsetTest s.2 l, bitsetSet s.2 l)) (p, b)
      = (p && ls.all (fun l => bitsetTest b l), ls.foldl bitsetSet b) := by
  induction ls generalizing p b with
  | nil => simp
  | cons l t ih =>
    simp only [List.foldl_cons, List.all_cons, ih]
    by_cases hb : bitsetTest b l = true
    · have hpt : (fun j => bitsetTest (bitsetSet b l) j)
          = fun j => bitsetTest b j := by
        funext j
        rw [bitsetTest_bitsetSet]
        by_cases hj : j = l
        · subst hj; simp [hb]
        · simp [hj]
      rw [hpt, hb]
      simp [Bool.and_assoc]
    · rw [Bool.not_eq_true] at hb
      simp [hb]

/-- C6 counterexample: on a filter whose probed bit is already set and whose
`present` field is `false`, `TestAndAdd` stores `true` into `present`, while
`Test` followed by `Add` never writes `present`; the two final struct states
therefore differ. -/
theorem C6_counterexample :
    TestAndAdd ⟨1, 1, [true], [0], false⟩ [] ≠
      ((Test ⟨1, 1, [true], [0], false⟩ []).1,
        Add (Test ⟨1, 1, [true], [0], false⟩ []).2 []) := by decide

/-- C6 amended: `TestAndAdd(x)` returns exactly what `Test(x)` would return on
the pre-call state (duplicate locations included) and leaves `m`, `k`, the bit
array and the scratch location buffer exactly as `Test(x)` then `Add(x)`
would; only the internal `present` scratch field differs, recording the
returned boolean. -/
theorem C6_TestAndAdd_amended (f : BloomFilter) (x : List Nat) (hm : 1 ≤ f.m) :
    (TestAndAdd f x).1 = (Test f x).1
    ∧ (TestAndAdd f x).2.m = (Add (Test f x).2 x).m
    ∧ (TestAndAdd f x).2.k = (Add (Test f x).2 x).k
    ∧ (TestAndAdd f x).2.b = (Add (Test f x).2 x).b
    ∧ (TestAndAdd f x).2.locBuff = (Add (Test f x).2 x).locBuff
    ∧ (TestAndAdd f x).2.present = (Test f x).1 := by
  have hloc : locations
      { m := f.m, k := f.k, b := f.b, locBuff := locations f x,
        present := f.present } x = locations f x := rfl
  refine ⟨?_, rfl, rfl, ?_, ?_, ?_⟩ <;>
    simp [TestAndAdd, Test, Add, testAndAdd_foldl, hloc]

/-- Closed-input witness for `C6_TestAndAdd_amended`. -/
theorem C6_TestAndAdd_amended_witness :
    1 ≤ (New 2 2).m
    ∧ ((TestAndAdd (New 2 2) [7]).1 = (Test (New 2 2) [7]).1
      ∧ (TestAndAdd (New 2 2) [7]).2.m = (Add (Test (New 2 2) [7]).2 [7]).m
      ∧ (TestAndAdd (New 2 2) [7]).2.k = (Add (Test (New 2 2) [7]).2 [7]).k
      ∧ (TestAndAdd (New 2 2) [7]).2.b = (Add (Test (New 2 2) [7]).2 [7]).b
      ∧ (TestAndAdd (New 2 2) [7]).2.locBuff
          = (Add (Test (New 2 2) [7]).2 [7]).locBuff
      ∧ (TestAndAdd (New 2 2) [7]).2.present = (Test (New 2 2) [7]).1) :=
  ⟨by decide, C6_TestAndAdd_amended (New 2 2) [7] (by decide)⟩



/-- C4 counterexample: `New(0, 0)` stores `m = 0` and `k = 0`; the constructor
performs no clamping to a minimum of 1. -/
theorem C4_counterexample : ¬ (1 ≤ (New 0 0).m ∧ 1 ≤ (New 0 0).k) := by decide

/-- C4 amended: `New(m, k)` stores the arguments `m` and `k` unchanged (no
clamping of values below 1) and allocates an all-clear bit array of `m` bits. -/
theorem C4_New_amended (m k : Nat) :
    (New m k).m = m ∧ (New m k).k = k
    ∧ (New m k).b = List.replicate m false := by
  exact ⟨rfl, rfl, rfl⟩

/-- Modelled from the spec: the external bit array's in-place union, used by
`Merge` — the bitwise OR of the two arrays. -/
def bitsetUnion (a c : List Bool) : List Bool :=
  (List.range (max a.length c.length)).map fun i => bitsetTest a i || bitsetTest c i

/-- MergeError is the error value `Merge` reports on mismatched parameters. -/
inductive MergeError
  | parameterMismatch
deriving DecidableEq

/-- Modelled from the spec: `Merge(other)` — absent from the sources, which
contain only its tests — fails with a ParameterMismatch error if `self.m ≠
other.m` or `self.k ≠ other.k`, leaving both operands unmodified; otherwise it
bitwise-ORs `other`'s bit array into `self`'s, leaving `other` unmodified.
The pair returned is the error (if any) together with the updated receiver;
the argument is never changed. -/
def Merge (f other : BloomFilter) : Option MergeError × BloomFilter :=
  if f.m ≠ other.m ∨ f.k ≠ other.k then (some MergeError.parameterMismatch, f)
  else (none, { f with b := bitsetUnion f.b other.b })

/-- C7: merging filters with different `m` or different `k` returns
ParameterMismatch and leaves the receiver unmodified (the argument, passed by
value here, is never modified); with equal parameters the merge succeeds and
bitwise-ORs the argument's bit array into the receiver's, touching nothing
else. -/
theorem C7_Merge (A B : BloomFilter) :
    (A.m ≠ B.m ∨ A.k ≠ B.k →
      Merge A B = (some MergeError.parameterMismatch, A))
    ∧ (A.m = B.m ∧ A.k = B.k →
      (Merge A B).1 = none
      ∧ (Merge A B).2.m = A.m ∧ (Merge A B).2.k = A.k
      ∧ (Merge A B).2.b = bitsetUnion A.b B.b
      ∧ (Merge A B).2.locBuff = A.locBuff
      ∧ (Merge A B).2.present = A.present) := by
  constructor
  · intro h
    simp [Merge, h]
  · rintro ⟨h1, h2⟩
    simp [Merge, h1, h2]

/-- Closed-input witness for `C7_Merge`, exercising both the mismatch branch
and the success branch. -/
theorem C7_Merge_witness :
    Merge (New 2 1) (New 3 1) = (some MergeError.parameterMismatch, New 2 1)
    ∧ (Merge (New 2 1) (New 2 1)).1 = none :=
  ⟨(C7_Merge (New 2 1) (New 3 1)).1 (Or.inl (by decide)),
   ((C7_Merge (New 2 1) (New 2 1)).2 ⟨rfl, rfl⟩).1⟩



/-- Big-endian 4-byte encoding of a 32-bit value, as
`binary.BigEndian.PutUint32` produces for the synthetic keys. -/
def be32 (i : Nat) : List Nat :=
  [i / 2 ^ 24 % 256, i / 2 ^ 16 % 256, i / 2 ^ 8 % 256, i % 256]

/-- The two loops of `EstimateFalsePositiveRate` in `bloom.go`: clear the
filter, `Add` the keys `be32 0 .. be32 (n-1)`, then `Test` the `2n` keys
`be32 (n+1) .. be32 (3n)`, counting the positives.  Loop counters live in
`uint32` exactly as in the source.  Returns the positive count together with
the filter state after the probe loop. -/
def fpLoops (f : BloomFilter) (n : Nat) : Nat × BloomFilter :=
  let f1 := (List.range (n % U32)).foldl
    (fun g i => Add g (be32 i)) (ClearAll f)
  (List.range (2 * n % U32)).foldl
    (fun (s : Nat × BloomFilter) i =>
      let r := Test s.2 (be32 ((i + n % U32 + 1) % U32))
      (s.1 + (if r.1 then 1 else 0), r.2))
    (0, f1)

/-- `EstimateFalsePositiveRate` from `bloom.go`: run the insert and probe
loops, report the positive count divided by the constant `100` (the source's
`float64(fp) / float64(100)`), and clear the filter. -/
def EstimateFalsePositiveRate (f : BloomFilter) (n : Nat) : ℚ × BloomFilter :=
  (((fpLoops f n).1 : ℚ) / 100, ClearAll (fpLoops f n).2)

/-- C3 divergence witness: on a one-bit, one-hash filter and `n = 1`, both
probes (keys 2 and 3) hit the single set bit, so the empirical false-positive
rate over the `2n = 2` probes is `2 / 2 = 1`; the code instead reports
`2 / 100 = 1 / 50`, because it divides the positive count by the constant
`100` rather than by the number of probes.  The filter is left cleared. -/
theorem C3_divisor_eval :
    (EstimateFalsePositiveRate (New 1 1) 1).1 = 1 / 50
    ∧ ((1 : ℚ) / 50) ≠ 2 / 2
    ∧ (EstimateFalsePositiveRate (New 1 1) 1).2.b = [false] := by
  have hcount : (fpLoops (New 1 1) 1).1 = 2 := by decide
  have hstate : (fpLoops (New 1 1) 1).2.b = [true] := by decide
  refine ⟨?_, by norm_num, ?_⟩
  · rw [EstimateFalsePositiveRate, hcount]
    norm_num
  · rw [EstimateFalsePositiveRate]
    simp [ClearAll, bitsetClearAll, hstate]



/-- `estimateParameters` from `bloom.go`, with Go's `float64` arithmetic
idealised as real arithmetic: `m = uint(-1 * n * log p / log(2)^2)` — the Go
`uint` conversion truncates toward zero, i.e. floor for the non-negative
values arising from `p ∈ (0,1)` — and `k = uint(ceil(log 2 * m / n))`, where
`k` reuses the already-truncated `m`. -/
noncomputable def estimateParameters (n : Nat) (p : ℝ) : Nat × Nat :=
  ((⌊(-1 : ℝ) * n * Real.log p / (Real.log 2) ^ 2⌋).toNat,
   (⌈Real.log 2 * ((⌊(-1 : ℝ) * n * Real.log p / (Real.log 2) ^ 2⌋).toNat : ℝ)
      / n⌉).toNat)

/-- `NewWithEstimates` from `bloom.go`: estimate `(m, k)` and construct. -/
noncomputable def NewWithEstimates (n : Nat) (p : ℝ) : BloomFilter :=
  New (estimateParameters n p).1 (estimateParameters n p).2

/-- Parameter estimation exactly as the claim words it: `m` is the ceiling of
`-1 * n * ln p / (ln 2)^2`, `k` is the ceiling of `(m / n) * ln 2`, and both
are clamped to a minimum of 1. -/
noncomputable def estimateParametersClaimed (n : Nat) (p : ℝ) : Nat × Nat :=
  (max 1 (⌈(-1 : ℝ) * n * Real.log p / (Real.log 2) ^ 2⌉).toNat,
   max 1 (⌈(max 1 (⌈(-1 : ℝ) * n * Real.log p / (Real.log 2) ^ 2⌉).toNat : ℝ)
      / n * Real.log 2⌉).toNat)

/-- C5 counterexample: at `n = 1`, `p = 1/2` the ideal value of `m` is
`1 / ln 2 ≈ 1.44`; the code truncates it to `1` (and derives `k = 1`), while
the claim's ceiling-and-clamp formulas give `m = 2`, `k = 2`. -/
theorem C5_counterexample :
    estimateParameters 1 (1 / 2) = (1, 1)
    ∧ estimateParametersClaimed 1 (1 / 2) = (2, 2)
    ∧ estimateParameters 1 (1 / 2) ≠ estimateParametersClaimed 1 (1 / 2) := by
  have hl2 : 0 < Real.log 2 := Real.log_pos (by norm_num)
  have hub : Real.log 2 < 0.6931471808 := Real.log_two_lt_d9
  have hlb : 0.6931471803 < Real.log 2 := Real.log_two_gt_d9
  have hv : (-1 : ℝ) * ((1 : ℕ) : ℝ) * Real.log (1 / 2) / (Real.log 2) ^ 2
      = 1 / Real.log 2 := by
    rw [one_div (2 : ℝ), Real.log_inv]
    push_cast
    field_simp
    ring
  have hfloor : ⌊(1 : ℝ) / Real.log 2⌋ = 1 := by
    rw [Int.floor_eq_iff]
    constructor
    · push_cast
      rw [le_div_iff hl2]
      nlinarith
    · push_cast
      rw [div_lt_iff hl2]
      nlinarith
  have hceil2 : ⌈(1 : ℝ) / Real.log 2⌉ = 2 := by
    rw [Int.ceil_eq_iff]
    constructor
    · push_cast
      rw [lt_div_iff hl2]
      nlinarith
    · push_cast
      rw [div_le_iff hl2]
      nlinarith
  have hceilL : ⌈Real.log 2⌉ = 1 := by
    rw [Int.ceil_eq_iff]
    constructor
    · push_cast
      nlinarith
    · push_cast
      nlinarith
  have hceil2L : ⌈2 * Real.log 2⌉ = 2 := by
    rw [Int.ceil_eq_iff]
    constructor
    · push_cast
      nlinarith
    · push_cast
      nlinarith
  have hm : (estimateParameters 1 (1 / 2)).1 = 1 := by
    simp only [estimateParameters, hv, hfloor]
    rfl
  have hk : (estimateParameters 1 (1 / 2)).2 = 1 := by
    simp only [estimateParameters, hv, hfloor]
    norm_num [hceilL]
  have hm2 : (estimateParametersClaimed 1 (1 / 2)).1 = 2 := by
    simp only [estimateParametersClaimed, hv, hceil2]
    rfl
  have hk2 : (estimateParametersClaimed 1 (1 / 2)).2 = 2 := by
    simp only [estimateParametersClaimed, hv, hceil2]
    norm_cast
    norm_num [hceil2L]
    decide
  have e1 : estimateParameters 1 (1 / 2) = (1, 1) := by
    rw [Prod.ext_iff]
    exact ⟨hm, hk⟩
  have e2 : estimateParametersClaimed 1 (1 / 2) = (2, 2) := by
    rw [Prod.ext_iff]
    exact ⟨hm2, hk2⟩
  refine ⟨e1, e2, ?_⟩
  rw [e1, e2]
  decide



/-- C5 amended: for `n ≥ 1` and `p ∈ (0, 1)` the estimator's `m` is the ideal
value `-1 * n * ln p / (ln 2)^2` truncated (not ceiled) to an integer, and its
`k` is the ceiling of `ln 2 * m / n` computed from the truncated `m`; neither
result is clamped to a minimum of 1.  Stated through the floor and ceiling
characterisations: `m ≤ v < m + 1` and `w ≤ k < w + 1`. -/
theorem C5_estimateParameters_amended (n : Nat) (p : ℝ)
    (hn : 1 ≤ n) (hp0 : 0 < p) (hp1 : p < 1) :
    0 ≤ (-1 : ℝ) * n * Real.log p / (Real.log 2) ^ 2
    ∧ ((estimateParameters n p).1 : ℝ)
        ≤ (-1 : ℝ) * n * Real.log p / (Real.log 2) ^ 2
    ∧ (-1 : ℝ) * n * Real.log p / (Real.log 2) ^ 2
        < (estimateParameters n p).1 + 1
    ∧ Real.log 2 * ((estimateParameters n p).1 : ℝ) / n
        ≤ ((estimateParameters n p).2 : ℝ)
    ∧ ((estimateParameters n p).2 : ℝ)
        < Real.log 2 * ((estimateParameters n p).1 : ℝ) / n + 1 := by
  have hl2 : 0 < Real.log 2 := Real.log_pos (by norm_num)
  have hlp : Real.log p < 0 := Real.log_neg hp0 hp1
  have hnpos : (0 : ℝ) < n := by
    exact_mod_cast Nat.lt_of_lt_of_le Nat.zero_lt_one hn
  have hv0 : 0 ≤ (-1 : ℝ) * n * Real.log p / (Real.log 2) ^ 2 := by
    apply div_nonneg
    · nlinarith
    · positivity
  have hfl0 : (0 : ℤ) ≤ ⌊(-1 : ℝ) * n * Real.log p / (Real.log 2) ^ 2⌋ :=
    Int.floor_nonneg.mpr hv0
  have hm : ((estimateParameters n p).1 : ℝ)
      = (⌊(-1 : ℝ) * n * Real.log p / (Real.log 2) ^ 2⌋ : ℝ) := by
    show ((⌊(-1 : ℝ) * n * Real.log p / (Real.log 2) ^ 2⌋.toNat : ℕ) : ℝ) = _
    conv_rhs => rw [← Int.toNat_of_nonneg hfl0]
    norm_cast
  have hw0 : 0 ≤ Real.log 2 * ((estimateParameters n p).1 : ℝ) / n := by
    apply div_nonneg
    · apply mul_nonneg hl2.le
      exact Nat.cast_nonneg _
    · exact hnpos.le
  have hcl0 : (0 : ℤ) ≤ ⌈Real.log 2 * ((estimateParameters n p).1 : ℝ) / n⌉ :=
    Int.ceil_nonneg hw0
  have hk : ((estimateParameters n p).2 : ℝ)
      = (⌈Real.log 2 * ((estimateParameters n p).1 : ℝ) / n⌉ : ℝ) := by
    show ((⌈Real.log 2 * ((estimateParameters n p).1 : ℝ) / n⌉.toNat : ℕ) : ℝ) = _
    conv_rhs => rw [← Int.toNat_of_nonneg hcl0]
    norm_cast
  refine ⟨hv0, ?_, ?_, ?_, ?_⟩
  · rw [hm]
    exact Int.floor_le _
  · rw [hm]
    exact Int.lt_floor_add_one _
  · rw [hk]
    exact Int.le_ceil _
  · rw [hk]
    exact Int.ceil_lt_add_one _

/-- Closed-input witness for `C5_estimateParameters_amended` at `n = 1`,
`p = 1/2`. -/
theorem C5_estimateParameters_amended_witness :
    0 ≤ (-1 : ℝ) * (1 : ℕ) * Real.log (1 / 2) / (Real.log 2) ^ 2
    ∧ ((estimateParameters 1 (1 / 2)).1 : ℝ)
        ≤ (-1 : ℝ) * (1 : ℕ) * Real.log (1 / 2) / (Real.log 2) ^ 2
    ∧ (-1 : ℝ) * (1 : ℕ) * Real.log (1 / 2) / (Real.log 2) ^ 2
        < (estimateParameters 1 (1 / 2)).1 + 1
    ∧ Real.log 2 * ((estimateParameters 1 (1 / 2)).1 : ℝ) / (1 : ℕ)
        ≤ ((estimateParameters 1 (1 / 2)).2 : ℝ)
    ∧ ((estimateParameters 1 (1 / 2)).2 : ℝ)
        < Real.log 2 * ((estimateParameters 1 (1 / 2)).1 : ℝ) / (1 : ℕ) + 1 :=
  C5_estimateParameters_amended 1 (1 / 2) (le_refl 1) (by norm_num) (by norm_num)



/-- Fixed-width big-endian byte encoding of a natural number (`w` bytes,
value taken mod `256 ^ w`), as `binary.Write(..., BigEndian, uint64(x))`
produces for `w = 8`. -/
def natToBEBytes : Nat → Nat → List Nat
  | 0, _ => []
  | w + 1, v => natToBEBytes w (v / 256) ++ [v % 256]

/-- Big-endian byte decoding, as `binary.Read(..., BigEndian, &x)` performs. -/
def beBytesToNat (bs : List Nat) : Nat :=
  bs.foldl (fun a c => a * 256 + c) 0

theorem length_natToBEBytes (w v : Nat) : (natToBEBytes w v).length = w := by
  induction w generalizing v with
  | zero => rfl
  | succ u ih => simp [natToBEBytes, ih]

theorem beBytesToNat_natToBEBytes (w v : Nat) :
    beBytesToNat (natToBEBytes w v) = v % 256 ^ w := by
  induction w generalizing v with
  | zero => simp [natToBEBytes, beBytesToNat, Nat.mod_one]
  | succ u ih =>
    show beBytesToNat (natToBEBytes u (v / 256) ++ [v % 256]) = _
    rw [beBytesToNat, List.foldl_append]
    show beBytesToNat (natToBEBytes u (v / 256)) * 256 + v % 256
        = v % 256 ^ (u + 1)
    rw [ih]
    conv_rhs => rw [pow_succ, Nat.mul_comm, Nat.mod_mul]
    ring



/-- Modelled from the spec: the bit array's packed words, least-significant
word first (`w` words of 64 bits each, value taken mod `2 ^ (64 * w)`). -/
def natWords : Nat → Nat → List Nat
  | 0, _ => []
  | w + 1, v => v % U64 :: natWords w (v / U64)

/-- Value represented by a least-significant-first list of 64-bit words. -/
def wordsVal (ws : List Nat) : Nat :=
  ws.foldr (fun w acc => w + U64 * acc) 0

/-- Modelled from the spec: the words of the bit-array payload serialized in
order, each as 8 big-endian bytes. -/
def encodeWords (ws : List Nat) : List Nat :=
  ws.foldr (fun w acc => natToBEBytes 8 w ++ acc) []

/-- Reading `w` big-endian 64-bit words from a byte stream, returning the
words and the remaining stream, or `none` if the stream is too short. -/
def decodeWords : Nat → List Nat → Option (List Nat × List Nat)
  | 0, s => some ([], s)
  | w + 1, s =>
    if 8 ≤ s.length then
      match decodeWords w (s.drop 8) with
      | some (ws, r) => some (beBytesToNat (s.take 8) :: ws, r)
      | none => none
    else none

theorem wordsVal_natWords (w v : Nat) :
    wordsVal (natWords w v) = v % U64 ^ w := by
  induction w generalizing v with
  | zero => simp [natWords, wordsVal, Nat.mod_one]
  | succ u ih =>
    show v % U64 + U64 * wordsVal (natWords u (v / U64)) = v % U64 ^ (u + 1)
    rw [ih]
    conv_rhs => rw [pow_succ, Nat.mul_comm, Nat.mod_mul]

theorem mem_natWords_lt (w v : Nat) : ∀ x ∈ natWords w v, x < 256 ^ 8 := by
  induction w generalizing v with
  | zero => simp [natWords]
  | succ u ih =>
    intro x hx
    rcases List.mem_cons.mp hx with h | h
    · subst h
      have : v % U64 < U64 := Nat.mod_lt _ (by norm_num [U64])
      simpa [U64] using this
    · exact ih (v / U64) x h

theorem decodeWords_encodeWords (ws : List Nat) (rest : List Nat)
    (h : ∀ x ∈ ws, x < 256 ^ 8) :
    decodeWords ws.length (encodeWords ws ++ rest) = some (ws, rest) := by
  induction ws with
  | nil => simp [decodeWords, encodeWords]
  | cons w t ih =>
    show decodeWords (t.length + 1)
        ((natToBEBytes 8 w ++ encodeWords t) ++ rest) = some (w :: t, rest)
    rw [List.append_assoc]
    have hlen : (natToBEBytes 8 w ++ (encodeWords t ++ rest)).length
        = 8 + (encodeWords t ++ rest).length := by
      simp [length_natToBEBytes]
    rw [decodeWords]
    rw [if_pos (by omega)]
    have htake : (natToBEBytes 8 w ++ (encodeWords t ++ rest)).take 8
        = natToBEBytes 8 w := by
      rw [← length_natToBEBytes 8 w]
      exact List.take_left _ _
    have hdrop : (natToBEBytes 8 w ++ (encodeWords t ++ rest)).drop 8
        = encodeWords t ++ rest := by
      rw [← length_natToBEBytes 8 w]
      exact List.drop_left _ _
    rw [htake, hdrop, ih (fun x hx => h x (List.mem_cons_of_mem _ hx))]
    rw [beBytesToNat_natToBEBytes]
    rw [Nat.mod_eq_of_lt (h w (List.mem_cons_self _ _))]



/-- Value of a bit list, least-significant bit first — the packed contents of
the bit array. -/
def bitsToNat : List Bool → Nat
  | [] => 0
  | bit :: bs => (if bit then 1 else 0) + 2 * bitsToNat bs

/-- The first `n` bits of a value, least-significant first — unpacking a bit
array of known bit-length from its packed contents. -/
def natToBits : Nat → Nat → List Bool
  | 0, _ => []
  | n + 1, v => decide (v % 2 = 1) :: natToBits n (v / 2)

theorem bitsToNat_lt (bs : List Bool) : bitsToNat bs < 2 ^ bs.length := by
  induction bs with
  | nil => simp [bitsToNat]
  | cons bit t ih =>
    show (if bit then 1 else 0) + 2 * bitsToNat t < 2 ^ (t.length + 1)
    rw [pow_succ]
    rcases Bool.dichotomy bit with h | h <;> subst h <;> simp <;> omega

theorem natToBits_bitsToNat (bs : List Bool) :
    natToBits bs.length (bitsToNat bs) = bs := by
  induction bs with
  | nil => rfl
  | cons bit t ih =>
    show (decide (((if bit then 1 else 0) + 2 * bitsToNat t) % 2 = 1))
        :: natToBits t.length (((if bit then 1 else 0) + 2 * bitsToNat t) / 2)
        = bit :: t
    have h2 : ((if bit then 1 else 0) + 2 * bitsToNat t) / 2 = bitsToNat t := by
      rcases Bool.dichotomy bit with h | h <;> subst h <;> simp <;> omega
    have h1 : ((if bit then 1 else 0) + 2 * bitsToNat t) % 2
        = if bit then 1 else 0 := by
      rcases Bool.dichotomy bit with h | h <;> subst h <;> simp [Nat.add_mul_mod_self_left] <;> omega
    rw [h1, h2, ih]
    rcases Bool.dichotomy bit with h | h <;> subst h <;> simp

/-- Modelled from the spec: the external bit array's binary encoding — an
8-byte big-endian bit-length header followed by the packed 64-bit words, each
written as 8 big-endian bytes. -/
def bitsetWriteTo (b : List Bool) : List Nat :=
  natToBEBytes 8 b.length
    ++ encodeWords (natWords ((b.length + 63) / 64) (bitsToNat b))

/-- Modelled from the spec: the external bit array's binary decoding — read
the 8-byte length header, then the corresponding number of packed words;
`none` signals a truncated stream.  Returns the bits and the rest of the
stream. -/
def bitsetReadFrom (s : List Nat) : Option (List Bool × List Nat) :=
  if 8 ≤ s.length then
    match decodeWords ((beBytesToNat (s.take 8) + 63) / 64) (s.drop 8) with
    | some (ws, r) => some (natToBits (beBytesToNat (s.take 8)) (wordsVal ws), r)
    | none => none
  else none

theorem bitsetReadFrom_bitsetWriteTo (b : List Bool) (rest : List Nat)
    (hb : b.length < U64) :
    bitsetReadFrom (bitsetWriteTo b ++ rest) = some (b, rest) := by
  have h256 : (256 : Nat) ^ 8 = U64 := by norm_num [U64]
  have hlen8 : (natToBEBytes 8 b.length).length = 8 := length_natToBEBytes 8 _
  rw [bitsetWriteTo, List.append_assoc]
  have htake : (natToBEBytes 8 b.length
      ++ (encodeWords (natWords ((b.length + 63) / 64) (bitsToNat b)) ++ rest)).take 8
      = natToBEBytes 8 b.length := by
    rw [← hlen8]
    exact List.take_left _ _
  have hdrop : (natToBEBytes 8 b.length
      ++ (encodeWords (natWords ((b.length + 63) / 64) (bitsToNat b)) ++ rest)).drop 8
      = encodeWords (natWords ((b.length + 63) / 64) (bitsToNat b)) ++ rest := by
    rw [← hlen8]
    exact List.drop_left _ _
  have hhdr : beBytesToNat (natToBEBytes 8 b.length) = b.length := by
    rw [beBytesToNat_natToBEBytes, h256, Nat.mod_eq_of_lt hb]
  rw [bitsetReadFrom, if_pos (by simp [hlen8])]
  rw [htake, hdrop, hhdr]
  have hwlen : (natWords ((b.length + 63) / 64) (bitsToNat b)).length
      = (b.length + 63) / 64 := by
    generalize (b.length + 63) / 64 = w
    generalize bitsToNat b = v
    induction w generalizing v with
    | zero => rfl
    | succ u ih => simp [natWords, ih]
  have hdec := decodeWords_encodeWords
    (natWords ((b.length + 63) / 64) (bitsToNat b)) rest (mem_natWords_lt _ _)
  rw [hwlen] at hdec
  rw [hdec]
  show some (natToBits b.length
      (wordsVal (natWords ((b.length + 63) / 64) (bitsToNat b))), rest)
    = some (b, rest)
  rw [wordsVal_natWords]
  have hple : 2 ^ b.length ≤ U64 ^ ((b.length + 63) / 64) := by
    have h64 : b.length ≤ 64 * ((b.length + 63) / 64) := by
      have := Nat.div_add_mod (b.length + 63) 64
      have := Nat.mod_lt (b.length + 63) (by norm_num : 0 < 64)
      omega
    calc 2 ^ b.length ≤ 2 ^ (64 * ((b.length + 63) / 64)) :=
          Nat.pow_le_pow_right (by norm_num) h64
      _ = U64 ^ ((b.length + 63) / 64) := by
          rw [U64, ← pow_mul]
  rw [Nat.mod_eq_of_lt (lt_of_lt_of_le (bitsToNat_lt b) hple)]
  rw [natToBits_bitsToNat]



/-- `WriteTo` from `bloom.go`: write `uint64(m)` big-endian, then `uint64(k)`
big-endian, then the bit array's own binary encoding. -/
def WriteTo (f : BloomFilter) : List Nat :=
  natToBEBytes 8 f.m ++ (natToBEBytes 8 f.k ++ bitsetWriteTo f.b)

/-- Failures of `ReadFrom`: the error returned when reading `m`, reading `k`,
or reading the bit-array payload fails (in this byte-stream model, when the
stream is truncated). -/
inductive ReadError
  | errM
  | errK
  | errBitset
deriving DecidableEq

/-- `ReadFrom` from `bloom.go`: read `m`, then `k`, then the bit array, each
into locals, and only on full success overwrite the filter's fields (the
scratch `locBuff` and `present` are not touched — the source does not resize
`locBuff` here).  On any failure the error is returned and the filter is left
exactly as it was. -/
def ReadFrom (f : BloomFilter) (s : List Nat) : Option ReadError × BloomFilter :=
  if 8 ≤ s.length then
    if 8 ≤ (s.drop 8).length then
      match bitsetReadFrom ((s.drop 8).drop 8) with
      | some (bits, _) =>
        (none, { m := beBytesToNat (s.take 8),
                 k := beBytesToNat ((s.drop 8).take 8),
                 b := bits, locBuff := f.locBuff, present := f.present })
      | none => (some ReadError.errBitset, f)
    else (some ReadError.errK, f)
  else (some ReadError.errM, f)

/-- The JSON object `bloomFilterJSON` from `bloom.go`, with fields `m`, `k`
and the bit array's own structured encoding; the JSON text layer itself
(Go's `encoding/json`) is modelled as faithful transport of this object. -/
structure BloomFilterJSON where
  M : Nat
  K : Nat
  B : List Bool
deriving DecidableEq

/-- `MarshalJSON` from `bloom.go`: emit the `bloomFilterJSON` object holding
`m`, `k` and the bit array. -/
def MarshalJSON (f : BloomFilter) : BloomFilterJSON :=
  { M := f.m, K := f.k, B := f.b }

/-- `UnmarshalJSON` from `bloom.go`: overwrite `m`, `k` and the bit array from
the decoded object, re-create the hasher, and allocate a fresh zeroed scratch
buffer of length `k`. -/
def UnmarshalJSON (f : BloomFilter) (j : BloomFilterJSON) : BloomFilter :=
  { m := j.M, k := j.K, b := j.B, locBuff := List.replicate j.K 0,
    present := f.present }



/-- C8: serialization round-trips.  Decoding the output of encoding a filter
`F` — through the structured (JSON-object) encoding and through the fixed
binary encoding (`WriteTo` / `ReadFrom`) — yields a filter with the same `m`,
the same `k`, and the same bit-array contents as `F`, whatever filter state
the destination held before decoding. -/
theorem C8_roundtrip (f g : BloomFilter)
    (hm : f.m < U64) (hk : f.k < U64) (hb : f.b.length < U64) :
    (UnmarshalJSON g (MarshalJSON f)).m = f.m
    ∧ (UnmarshalJSON g (MarshalJSON f)).k = f.k
    ∧ (UnmarshalJSON g (MarshalJSON f)).b = f.b
    ∧ (ReadFrom g (WriteTo f)).1 = none
    ∧ (ReadFrom g (WriteTo f)).2.m = f.m
    ∧ (ReadFrom g (WriteTo f)).2.k = f.k
    ∧ (ReadFrom g (WriteTo f)).2.b = f.b := by
  have h256 : (256 : Nat) ^ 8 = U64 := by norm_num [U64]
  have hlm : (natToBEBytes 8 f.m).length = 8 := length_natToBEBytes 8 _
  have hlk : (natToBEBytes 8 f.k).length = 8 := length_natToBEBytes 8 _
  have hdrop1 : (WriteTo f).drop 8
      = natToBEBytes 8 f.k ++ bitsetWriteTo f.b := by
    rw [WriteTo, ← hlm]
    exact List.drop_left _ _
  have htake1 : (WriteTo f).take 8 = natToBEBytes 8 f.m := by
    rw [WriteTo, ← hlm]
    exact List.take_left _ _
  have hdrop2 : ((WriteTo f).drop 8).drop 8 = bitsetWriteTo f.b := by
    rw [hdrop1, ← hlk]
    exact List.drop_left _ _
  have htake2 : ((WriteTo f).drop 8).take 8 = natToBEBytes 8 f.k := by
    rw [hdrop1, ← hlk]
    exact List.take_left _ _
  have hlen1 : 8 ≤ (WriteTo f).length := by
    rw [WriteTo]
    simp [hlm]
  have hlen2 : 8 ≤ ((WriteTo f).drop 8).length := by
    rw [hdrop1]
    simp [hlk]
  have hbits : bitsetReadFrom (((WriteTo f).drop 8).drop 8)
      = some (f.b, []) := by
    rw [hdrop2, ← List.append_nil (bitsetWriteTo f.b)]
    exact bitsetReadFrom_bitsetWriteTo f.b [] hb
  have hread : ReadFrom g (WriteTo f)
      = (none, { m := beBytesToNat ((WriteTo f).take 8),
                 k := beBytesToNat (((WriteTo f).drop 8).take 8),
                 b := f.b, locBuff := g.locBuff, present := g.present }) := by
    rw [ReadFrom, if_pos hlen1, if_pos hlen2, hbits]
  have hmval : beBytesToNat ((WriteTo f).take 8) = f.m := by
    rw [htake1, beBytesToNat_natToBEBytes, h256, Nat.mod_eq_of_lt hm]
  have hkval : beBytesToNat (((WriteTo f).drop 8).take 8) = f.k := by
    rw [htake2, beBytesToNat_natToBEBytes, h256, Nat.mod_eq_of_lt hk]
  refine ⟨rfl, rfl, rfl, ?_, ?_, ?_, ?_⟩ <;> rw [hread]
  · exact hmval
  · exact hkval

/-- Closed-input witness for `C8_roundtrip`. -/
theorem C8_roundtrip_witness :
    (New 3 2).m < U64 ∧ (New 3 2).k < U64 ∧ (New 3 2).b.length < U64
    ∧ ((UnmarshalJSON (New 1 1) (MarshalJSON (New 3 2))).m = (New 3 2).m
      ∧ (UnmarshalJSON (New 1 1) (MarshalJSON (New 3 2))).k = (New 3 2).k
      ∧ (UnmarshalJSON (New 1 1) (MarshalJSON (New 3 2))).b = (New 3 2).b
      ∧ (ReadFrom (New 1 1) (WriteTo (New 3 2))).1 = none
      ∧ (ReadFrom (New 1 1) (WriteTo (New 3 2))).2.m = (New 3 2).m
      ∧ (ReadFrom (New 1 1) (WriteTo (New 3 2))).2.k = (New 3 2).k
      ∧ (ReadFrom (New 1 1) (WriteTo (New 3 2))).2.b = (New 3 2).b) :=
  ⟨by decide, by decide, by decide,
   C8_roundtrip (New 3 2) (New 1 1) (by decide) (by decide) (by decide)⟩

/-- C9: binary-decode atomicity.  Whenever `ReadFrom` fails — reading `m`,
reading `k`, or reading the bit-array payload, including truncation — it
returns the error and leaves the destination filter exactly as it was; and a
stream shorter than the two 8-byte headers always fails. -/
theorem C9_ReadFrom_atomic (f : BloomFilter) (s : List Nat) :
    ((ReadFrom f s).1.isSome → (ReadFrom f s).2 = f)
    ∧ (s.length < 16 → (ReadFrom f s).1.isSome) := by
  rw [ReadFrom]
  by_cases h1 : 8 ≤ s.length
  · rw [if_pos h1]
    by_cases h2 : 8 ≤ (s.drop 8).length
    · rw [if_pos h2]
      have hlen : 16 ≤ s.length := by
        rw [List.length_drop] at h2
        omega
      rcases hbits : bitsetReadFrom ((s.drop 8).drop 8) with _ | ⟨bits, r⟩
      · exact ⟨fun _ => rfl, fun hshort => by omega⟩
      · exact ⟨fun habs => by simp at habs, fun hshort => by omega⟩
    · rw [if_neg h2]
      exact ⟨fun _ => rfl, fun _ => rfl⟩
  · rw [if_neg h1]
    exact ⟨fun _ => rfl, fun _ => rfl⟩

/-- Closed-input witness for `C9_ReadFrom_atomic`: a three-byte stream fails
and leaves the filter untouched. -/
theorem C9_ReadFrom_atomic_witness :
    (ReadFrom (New 2 1) [0, 1, 2]).1.isSome
    ∧ (ReadFrom (New 2 1) [0, 1, 2]).2 = New 2 1 :=
  ⟨(C9_ReadFrom_atomic (New 2 1) [0, 1, 2]).2 (by decide),
   (C9_ReadFrom_atomic (New 2 1) [0, 1, 2]).1
     ((C9_ReadFrom_atomic (New 2 1) [0, 1, 2]).2 (by decide))⟩


end Bloom
